import Mathlib

/-!
Verification of the postcopy live-migration engine (migration-postcopy.c).

This file gives a shallow embedding in Lean of the parts of the C code that
the checked properties are about: the request wire codec, the source-side
request parser, the source outgoing scheduler state machine, the clean-bitmap
sender and reader, the destination request builder and receive path, and the
fault-pipe buffering loops.  Machine integers are modelled as Nat with
explicit wrapping where it matters; byte buffers are lists of Nat.
-/

namespace Postcopy

/-! ## Big-endian integer codec (qemu_put_be32 / qemu_put_be64 and peers) -/

/-- Big-endian encoding of a 32-bit value as 4 bytes (qemu_put_be32). -/
def be32enc (n : Nat) : List Nat :=
  [n / 2 ^ 24 % 256, n / 2 ^ 16 % 256, n / 2 ^ 8 % 256, n % 256]

/-- Big-endian encoding of a 64-bit value as 8 bytes (qemu_put_be64). -/
def be64enc (n : Nat) : List Nat :=
  [n / 2 ^ 56 % 256, n / 2 ^ 48 % 256, n / 2 ^ 40 % 256, n / 2 ^ 32 % 256,
   n / 2 ^ 24 % 256, n / 2 ^ 16 % 256, n / 2 ^ 8 % 256, n % 256]

/-- Big-endian decoding of 4 bytes (be32_to_cpu on the peeked buffer). -/
def be32dec (l : List Nat) : Nat :=
  match l with
  | [a, b, c, d] => ((a * 256 + b) * 256 + c) * 256 + d
  | _ => 0

/-- Big-endian decoding of 8 bytes (be64_to_cpu on the peeked buffer). -/
def be64dec (l : List Nat) : Nat :=
  match l with
  | [a, b, c, d, e, f, g, h] =>
      ((((((a * 256 + b) * 256 + c) * 256 + d) * 256 + e) * 256 + f) * 256 + g)
        * 256 + h
  | _ => 0

theorem be32enc_length (n : Nat) : (be32enc n).length = 4 := rfl

theorem be64enc_length (n : Nat) : (be64enc n).length = 8 := rfl

theorem be32dec_be32enc (n : Nat) (h : n < 2 ^ 32) : be32dec (be32enc n) = n := by
  simp only [be32enc, be32dec]
  omega

theorem be64dec_be64enc (n : Nat) (h : n < 2 ^ 64) : be64dec (be64enc n) = n := by
  simp only [be64enc, be64dec]
  omega

/-! ## Request wire codec (umem daemon on destination -> qemu on source)

The command byte values QEMU_UMEM_REQ_{EOC,PAGE,PAGE_CONT} come from
migration/postcopy.h, which is outside this translation unit; the concrete
values are irrelevant to every property below, only their distinctness is
used, so they are fixed here as 0, 1, 2. -/

def QEMU_UMEM_REQ_EOC : Nat := 0
def QEMU_UMEM_REQ_PAGE : Nat := 1
def QEMU_UMEM_REQ_PAGE_CONT : Nat := 2

/-- The command of a QEMUUMemReq. -/
inductive UMemCmd : Type
  | eoc
  | page
  | pageCont
deriving DecidableEq, Repr

def UMemCmd.byte : UMemCmd → Nat
  | .eoc => QEMU_UMEM_REQ_EOC
  | .page => QEMU_UMEM_REQ_PAGE
  | .pageCont => QEMU_UMEM_REQ_PAGE_CONT

/-- A QEMUUMemReq: command, block id string (as bytes), page offsets. -/
structure UMemReq : Type where
  cmd : UMemCmd
  idstr : List Nat
  pgoffs : List Nat
deriving DecidableEq, Repr

/-- postcopy_incoming_send_req_idstr: id length byte followed by the id. -/
def send_req_idstr (idstr : List Nat) : List Nat :=
  idstr.length :: idstr

/-- postcopy_incoming_send_req_pgoffs: be32 count, then be64 offsets. -/
def send_req_pgoffs (pgoffs : List Nat) : List Nat :=
  be32enc pgoffs.length ++ pgoffs.flatMap be64enc

/-- postcopy_incoming_send_req_one: one framed message. -/
def send_req_one (req : UMemReq) : List Nat :=
  req.cmd.byte ::
    match req.cmd with
    | .eoc => []
    | .page => send_req_idstr req.idstr ++ send_req_pgoffs req.pgoffs
    | .pageCont => send_req_pgoffs req.pgoffs

/-- MAX_PAGE_NR = ((32 * 1024 - 1 - 1 - 256 - 2) / sizeof(uint64_t)). -/
def MAX_PAGE_NR : Nat := (32 * 1024 - 1 - 1 - 256 - 2) / 8

theorem MAX_PAGE_NR_eq : MAX_PAGE_NR = 4063 := rfl

/-- The PAGE_CONT chunking loop of postcopy_file_incoming_send_req:
while nr > 0 emit a chunk of MIN(nr, MAX_PAGE_NR) offsets. -/
def pageContChunks (l : List Nat) : List (List Nat) :=
  if h : l = [] then []
  else l.take MAX_PAGE_NR :: pageContChunks (l.drop MAX_PAGE_NR)
termination_by l.length
decreasing_by
  simp only [List.length_drop]
  have hl : 0 < l.length := List.length_pos.mpr h
  have : 0 < MAX_PAGE_NR := by decide
  omega

/-- postcopy_file_incoming_send_req, abstracted to the sequence of framed
requests it emits (each frame is then serialized by send_req_one). -/
def file_incoming_send_req (req : UMemReq) : List UMemReq :=
  match req.cmd with
  | .eoc => [req]
  | .page =>
      { req with pgoffs := req.pgoffs.take MAX_PAGE_NR } ::
        (pageContChunks (req.pgoffs.drop MAX_PAGE_NR)).map
          (fun c => { cmd := .pageCont, idstr := req.idstr, pgoffs := c })
  | .pageCont =>
      (pageContChunks req.pgoffs).map
        (fun c => { cmd := .pageCont, idstr := req.idstr, pgoffs := c })

theorem pageContChunks_join_aux :
    ∀ n (l : List Nat), l.length ≤ n → (pageContChunks l).flatten = l := by
  intro n
  induction n with
  | zero =>
      intro l hl
      have : l = [] := List.length_eq_zero.mp (Nat.le_zero.mp hl)
      subst this
      rw [pageContChunks]
      simp
  | succ n ih =>
      intro l hl
      rw [pageContChunks]
      split
      · simp [*]
      · rename_i hne
        have hpos : 0 < l.length := List.length_pos.mpr hne
        have hM : 0 < MAX_PAGE_NR := by decide
        have hrec := ih (l.drop MAX_PAGE_NR) (by simp; omega)
        simp only [List.flatten_cons, hrec]
        exact List.take_append_drop _ _

theorem pageContChunks_join (l : List Nat) :
    (pageContChunks l).flatten = l :=
  pageContChunks_join_aux l.length l le_rfl

theorem pageContChunks_sizes_aux :
    ∀ n (l : List Nat), l.length ≤ n →
      ∀ c ∈ pageContChunks l, c.length ≤ MAX_PAGE_NR ∧ c ≠ [] := by
  intro n
  induction n with
  | zero =>
      intro l hl
      have : l = [] := List.length_eq_zero.mp (Nat.le_zero.mp hl)
      subst this
      rw [pageContChunks]
      simp
  | succ n ih =>
      intro l hl
      rw [pageContChunks]
      split
      · simp
      · rename_i hne
        have hpos : 0 < l.length := List.length_pos.mpr hne
        intro c hc
        simp only [List.mem_cons] at hc
        rcases hc with rfl | hc
        · refine ⟨by simpa using List.length_take_le MAX_PAGE_NR l, ?_⟩
          have : 0 < MAX_PAGE_NR := by decide
          simp only [ne_eq, ← List.length_pos, List.length_take]
          omega
        · have hM : 0 < MAX_PAGE_NR := by decide
          exact ih (l.drop MAX_PAGE_NR) (by simp; omega) c hc

theorem pageContChunks_sizes (l : List Nat) :
    ∀ c ∈ pageContChunks l, c.length ≤ MAX_PAGE_NR ∧ c ≠ [] :=
  pageContChunks_sizes_aux l.length l le_rfl

theorem flatMap_be64enc_length (l : List Nat) :
    (l.flatMap be64enc).length = 8 * l.length := by
  induction l with
  | nil => simp
  | cons x xs ih => simp [List.flatMap_cons, ih, be64enc_length]; omega

theorem send_req_one_length (r : UMemReq) :
    (send_req_one r).length =
      match r.cmd with
      | .eoc => 1
      | .page => 6 + r.idstr.length + 8 * r.pgoffs.length
      | .pageCont => 5 + 8 * r.pgoffs.length := by
  obtain ⟨cmd, idstr, pgoffs⟩ := r
  cases cmd <;>
    simp only [send_req_one, send_req_idstr, send_req_pgoffs, be32enc,
      List.length_cons, List.length_append, List.length_nil,
      flatMap_be64enc_length] <;> omega

/-- Claim C9: splitting a PAGE request into frames loses and duplicates
nothing: the emitted frame list is one PAGE frame followed by zero or more
PAGE_CONT frames, and the concatenation of the pgoffs arrays of the frames,
in order, equals the original offset list. -/
theorem file_incoming_send_req_pgoffs_join (id l : List Nat) :
    ((file_incoming_send_req ⟨.page, id, l⟩).map UMemReq.pgoffs).flatten = l
    ∧ ∃ rest, file_incoming_send_req ⟨.page, id, l⟩ =
        ⟨.page, id, l.take MAX_PAGE_NR⟩ :: rest
      ∧ ∀ r ∈ rest, r.cmd = .pageCont := by
  refine ⟨?_, ?_⟩
  · simp only [file_incoming_send_req, List.map_cons, List.flatten_cons,
      List.map_map]
    have hcomp : (UMemReq.pgoffs ∘ fun (c : List Nat) =>
        ({ cmd := .pageCont, idstr := id, pgoffs := c } : UMemReq)) =
        fun c => c := by
      funext c
      rfl
    rw [hcomp, List.map_id', pageContChunks_join]
    exact List.take_append_drop _ _
  · refine ⟨(pageContChunks (l.drop MAX_PAGE_NR)).map
      (fun c => { cmd := .pageCont, idstr := id, pgoffs := c }), rfl, ?_⟩
    intro r hr
    simp only [List.mem_map] at hr
    obtain ⟨c, _, rfl⟩ := hr
    rfl

/-- Claim C2, counterexample: the claim fixes MAX_PAGE_NR = 4062 and asserts
that a list of 4062 + 1 = 4063 offsets is split into one PAGE frame followed
by one PAGE_CONT frame.  But the code's MAX_PAGE_NR is
(32768 - 260) / 8 = 4063 (integer division), so 4063 offsets go out as a
single PAGE frame. -/
theorem file_incoming_send_req_4063_single_frame :
    (List.range (4062 + 1)).length = 4062 + 1
    ∧ (file_incoming_send_req ⟨.page, [97], List.range (4062 + 1)⟩).length = 1
    ∧ (file_incoming_send_req ⟨.page, [97], List.range (4062 + 1)⟩).length
        ≠ 2 := by
  have hone : (file_incoming_send_req
      ⟨.page, [97], List.range (4062 + 1)⟩).length = 1 := by
    have htake : (List.range 4063).drop MAX_PAGE_NR = [] := by
      apply List.drop_eq_nil_of_le
      simp [MAX_PAGE_NR_eq]
    simp only [file_incoming_send_req, htake]
    rw [pageContChunks]
    simp
  refine ⟨by simp, hone, by omega⟩

/-- Claim C2, amended (MAX_PAGE_NR is 4063, not 4062): a request list of
exactly MAX_PAGE_NR offsets goes out as a single PAGE frame; a list of
MAX_PAGE_NR + 1 offsets is split into one PAGE frame of MAX_PAGE_NR offsets
followed by one PAGE_CONT frame with the last offset; and every emitted
framed message fits in 32768 bytes (given the id string is at most 255
bytes, as it is in the code where idstr is produced by strlen of a
char[256]). -/
theorem file_incoming_send_req_frames (id l : List Nat)
    (hid : id.length ≤ 255) :
    (l.length = MAX_PAGE_NR →
      file_incoming_send_req ⟨.page, id, l⟩ = [⟨.page, id, l⟩])
    ∧ (l.length = MAX_PAGE_NR + 1 →
      file_incoming_send_req ⟨.page, id, l⟩ =
        [⟨.page, id, l.take MAX_PAGE_NR⟩, ⟨.pageCont, id, l.drop MAX_PAGE_NR⟩])
    ∧ (∀ r ∈ file_incoming_send_req ⟨.page, id, l⟩,
        (send_req_one r).length ≤ 32768) := by
  refine ⟨?_, ?_, ?_⟩
  · intro hlen
    have htake : l.take MAX_PAGE_NR = l := List.take_of_length_le hlen.le
    have hdrop : l.drop MAX_PAGE_NR = [] := List.drop_eq_nil_of_le hlen.le
    simp only [file_incoming_send_req, htake, hdrop]
    rw [pageContChunks]
    simp
  · intro hlen
    have hdrop : (l.drop MAX_PAGE_NR).length = 1 := by
      simp [hlen]
    have hne : l.drop MAX_PAGE_NR ≠ [] := by
      simp only [ne_eq, ← List.length_pos, hdrop]
      omega
    simp only [file_incoming_send_req]
    rw [pageContChunks]
    have hdd : ((l.drop MAX_PAGE_NR).drop MAX_PAGE_NR) = [] := by
      apply List.drop_eq_nil_of_le
      rw [hdrop]
      decide
    have htt : (l.drop MAX_PAGE_NR).take MAX_PAGE_NR = l.drop MAX_PAGE_NR := by
      apply List.take_of_length_le
      rw [hdrop]
      decide
    simp only [hne, dite_false, hdd, htt]
    rw [pageContChunks]
    simp
  · intro r hr
    simp only [file_incoming_send_req, List.mem_cons, List.mem_map] at hr
    rcases hr with rfl | ⟨c, hc, rfl⟩
    · have hn : (l.take MAX_PAGE_NR).length ≤ MAX_PAGE_NR := by
        simpa using List.length_take_le MAX_PAGE_NR l
      rw [send_req_one_length]
      have h4 := MAX_PAGE_NR_eq
      simp only []
      omega
    · have hn := (pageContChunks_sizes _ c hc).1
      rw [send_req_one_length]
      have h4 := MAX_PAGE_NR_eq
      simp only []
      omega

/-- Witness for the amended C2 theorem at a concrete input: a one-byte id
and MAX_PAGE_NR + 1 = 4064 offsets give exactly a PAGE frame of 4063 offsets
followed by a PAGE_CONT frame holding the final offset. -/
theorem file_incoming_send_req_frames_witness :
    file_incoming_send_req ⟨.page, [97], List.range (MAX_PAGE_NR + 1)⟩ =
      [⟨.page, [97], (List.range (MAX_PAGE_NR + 1)).take MAX_PAGE_NR⟩,
       ⟨.pageCont, [97], (List.range (MAX_PAGE_NR + 1)).drop MAX_PAGE_NR⟩] :=
  (file_incoming_send_req_frames [97] (List.range (MAX_PAGE_NR + 1))
    (by decide)).2.1 (by simp)

/-! ## Source-side request parser (postcopy_outgoing_recv_req and helpers)

The QEMUFile peek interface: qemu_peek_buffer(f, buf, len, offset) copies
up to len bytes starting at offset into the internal buffer and returns how
many were available; qemu_peek_byte(f, offset) returns the byte at offset or
0 when it is not buffered; qemu_file_skip(f, n) consumes n bytes.  The
buffered data is modelled as a list of bytes. -/

/-- qemu_peek_buffer: the bytes at offset, truncated to what is buffered. -/
def peekBuffer (buf : List Nat) (off len : Nat) : List Nat :=
  (buf.drop off).take len

/-- qemu_peek_byte: the byte at offset, or 0 when not buffered. -/
def peekByte (buf : List Nat) (off : Nat) : Nat :=
  buf.getD off 0

/-- Outcome of postcopy_outgoing_recv_req on the buffered bytes: a fully
parsed request together with the number of bytes consumed by
qemu_file_skip, the try-again outcome (-EAGAIN, nothing consumed), or the
abort() on an unknown command byte. -/
inductive RecvResult : Type
  | ok (req : UMemReq) (skip : Nat)
  | again
  | aborted
deriving DecidableEq, Repr

/-- postcopy_outgoing_recv_req_idstr: peek the id length byte, treat 0 as
-EAGAIN, then peek the id itself, -EAGAIN when short. -/
def recv_req_idstr (buf : List Nat) (off : Nat) :
    Option (List Nat × Nat) :=
  let len := peekByte buf off
  let off := off + 1
  if len = 0 then none
  else
    let s := peekBuffer buf off len
    let off := off + s.length
    if s.length ≠ len then none else some (s, off)

/-- The pgoff peek loop inside postcopy_outgoing_recv_req_pgoffs. -/
def recv_pgoff_loop (buf : List Nat) :
    Nat → Nat → List Nat → Option (List Nat × Nat)
  | off, 0, acc => some (acc, off)
  | off, n + 1, acc =>
      let w := peekBuffer buf off 8
      let off := off + 8
      if w.length ≠ 8 then none
      else recv_pgoff_loop buf off n (acc ++ [be64dec w])

/-- postcopy_outgoing_recv_req_pgoffs: peek the be32 count, -EAGAIN when
short, then peek that many be64 offsets. -/
def recv_req_pgoffs (buf : List Nat) (off : Nat) :
    Option (List Nat × Nat) :=
  let b := peekBuffer buf off 4
  let off := off + 4
  if b.length ≠ 4 then none
  else recv_pgoff_loop buf off (be32dec b) []

/-- postcopy_outgoing_recv_req: peek the command byte, dispatch, and only
when the whole request parsed call qemu_file_skip with the offset cursor. -/
def recv_req (buf : List Nat) : RecvResult :=
  match buf with
  | [] => .again
  | c :: _ =>
      if c = QEMU_UMEM_REQ_EOC then .ok ⟨.eoc, [], []⟩ 1
      else if c = QEMU_UMEM_REQ_PAGE then
        match recv_req_idstr buf 1 with
        | none => .again
        | some (idstr, off) =>
            match recv_req_pgoffs buf off with
            | none => .again
            | some (pgoffs, off) => .ok ⟨.page, idstr, pgoffs⟩ off
      else if c = QEMU_UMEM_REQ_PAGE_CONT then
        match recv_req_pgoffs buf 1 with
        | none => .again
        | some (pgoffs, off) => .ok ⟨.pageCont, [], pgoffs⟩ off
      else .aborted

/-- What recv_req reconstructs from a request put on the wire by
send_req_one: EOC and PAGE_CONT frames carry no id string. -/
def parsedOf (r : UMemReq) : UMemReq :=
  match r.cmd with
  | .eoc => ⟨.eoc, [], []⟩
  | .page => ⟨.page, r.idstr, r.pgoffs⟩
  | .pageCont => ⟨.pageCont, [], r.pgoffs⟩

theorem recv_pgoff_loop_ok (vs : List Nat) :
    ∀ buf off acc post, buf.drop off = vs.flatMap be64enc ++ post →
      (∀ v ∈ vs, v < 2 ^ 64) →
      recv_pgoff_loop buf off vs.length acc =
        some (acc ++ vs, off + 8 * vs.length) := by
  induction vs with
  | nil =>
      intro buf off acc post _ _
      simp [recv_pgoff_loop]
  | cons v vs ih =>
      intro buf off acc post hdrop hv
      rw [List.flatMap_cons, List.append_assoc] at hdrop
      have hpeek : peekBuffer buf off 8 = be64enc v := by
        rw [peekBuffer, hdrop, show (8 : Nat) = (be64enc v).length from rfl,
          List.take_left]
      have hdrop8 : buf.drop (off + 8) =
          vs.flatMap be64enc ++ post := by
        rw [← List.drop_drop, hdrop,
          show (8 : Nat) = (be64enc v).length from rfl, List.drop_left]
      simp only [recv_pgoff_loop, hpeek, be64enc_length, ne_eq,
        not_true_eq_false, reduceIte,
        be64dec_be64enc v (hv v (List.mem_cons_self v vs))]
      rw [ih buf (off + 8) (acc ++ [v]) post hdrop8
        (fun x hx => hv x (List.mem_cons_of_mem v hx))]
      have harith : off + 8 + 8 * vs.length = off + 8 * (vs.length + 1) := by
        ring
      simp only [List.append_assoc, List.singleton_append, List.length_cons,
        harith]

theorem recv_pgoff_loop_short :
    ∀ n buf off acc, (buf.drop off).length < 8 * n →
      recv_pgoff_loop buf off n acc = none := by
  intro n
  induction n with
  | zero => intro buf off acc h; omega
  | succ n ih =>
      intro buf off acc h
      have hlen : (peekBuffer buf off 8).length =
          min 8 (buf.drop off).length := by
        rw [peekBuffer, List.length_take]
      by_cases hc : (buf.drop off).length < 8
      · have hne : (peekBuffer buf off 8).length ≠ 8 := by omega
        simp only [recv_pgoff_loop]
        rw [if_pos hne]
      · have h8 : (peekBuffer buf off 8).length = 8 := by omega
        simp only [recv_pgoff_loop]
        rw [if_neg (by omega)]
        apply ih
        rw [← List.drop_drop, List.length_drop]
        omega

theorem recv_req_pgoffs_ok (buf : List Nat) (off : Nat) (vs post : List Nat)
    (hdrop : buf.drop off = be32enc vs.length ++ (vs.flatMap be64enc ++ post))
    (hnr : vs.length < 2 ^ 32) (hv : ∀ v ∈ vs, v < 2 ^ 64) :
    recv_req_pgoffs buf off = some (vs, off + 4 + 8 * vs.length) := by
  have hpeek : peekBuffer buf off 4 = be32enc vs.length := by
    rw [peekBuffer, hdrop, show (4 : Nat) = (be32enc vs.length).length from rfl,
      List.take_left]
  have hdrop4 : buf.drop (off + 4) = vs.flatMap be64enc ++ post := by
    rw [← List.drop_drop, hdrop,
      show (4 : Nat) = (be32enc vs.length).length from rfl, List.drop_left]
  simp only [recv_req_pgoffs, hpeek, be32enc_length, ne_eq, not_true_eq_false,
    reduceIte, be32dec_be32enc vs.length hnr]
  rw [recv_pgoff_loop_ok vs buf (off + 4) [] post hdrop4 hv]
  simp

theorem recv_req_pgoffs_short_count (buf : List Nat) (off : Nat)
    (h : (buf.drop off).length < 4) : recv_req_pgoffs buf off = none := by
  have hlen : (peekBuffer buf off 4).length = min 4 (buf.drop off).length := by
    rw [peekBuffer, List.length_take]
  have hne : (peekBuffer buf off 4).length ≠ 4 := by omega
  simp only [recv_req_pgoffs]
  rw [if_pos hne]

theorem send_req_one_page_eq (id offs : List Nat) :
    send_req_one ⟨.page, id, offs⟩ =
      QEMU_UMEM_REQ_PAGE :: id.length ::
        (id ++ (be32enc offs.length ++ offs.flatMap be64enc)) := by
  simp [send_req_one, send_req_idstr, send_req_pgoffs, UMemCmd.byte]

theorem send_req_one_cont_eq (id offs : List Nat) :
    send_req_one ⟨.pageCont, id, offs⟩ =
      QEMU_UMEM_REQ_PAGE_CONT ::
        (be32enc offs.length ++ offs.flatMap be64enc) := by
  simp [send_req_one, send_req_pgoffs, UMemCmd.byte]

theorem recv_req_cons_page (t : List Nat) :
    recv_req (QEMU_UMEM_REQ_PAGE :: t) =
      match recv_req_idstr (QEMU_UMEM_REQ_PAGE :: t) 1 with
      | none => .again
      | some (idstr, off) =>
          match recv_req_pgoffs (QEMU_UMEM_REQ_PAGE :: t) off with
          | none => .again
          | some (pgoffs, off) => .ok ⟨.page, idstr, pgoffs⟩ off := by
  simp only [recv_req, QEMU_UMEM_REQ_EOC, QEMU_UMEM_REQ_PAGE,
    QEMU_UMEM_REQ_PAGE_CONT]
  norm_num

theorem recv_req_cons_cont (t : List Nat) :
    recv_req (QEMU_UMEM_REQ_PAGE_CONT :: t) =
      match recv_req_pgoffs (QEMU_UMEM_REQ_PAGE_CONT :: t) 1 with
      | none => .again
      | some (pgoffs, off) => .ok ⟨.pageCont, [], pgoffs⟩ off := by
  simp only [recv_req, QEMU_UMEM_REQ_EOC, QEMU_UMEM_REQ_PAGE,
    QEMU_UMEM_REQ_PAGE_CONT]
  norm_num

theorem recv_req_idstr_cons (c L : Nat) (t : List Nat) (hL : L ≠ 0) :
    recv_req_idstr (c :: L :: t) 1 =
      if (t.take L).length = L then some (t.take L, 2 + L) else none := by
  have hpk : peekByte (c :: L :: t) 1 = L := rfl
  have hpb : peekBuffer (c :: L :: t) 2 L = t.take L := rfl
  simp only [recv_req_idstr, hpk, hpb]
  rw [if_neg hL]
  by_cases h : (t.take L).length = L
  · rw [if_neg (by omega), if_pos h, h]
  · rw [if_pos (by omega), if_neg h]

theorem recv_req_idstr_one (c : Nat) : recv_req_idstr [c] 1 = none := rfl

theorem recv_req_pgoffs_short_loop (buf : List Nat) (off nr : Nat)
    (hb : peekBuffer buf off 4 = be32enc nr) (hnr : nr < 2 ^ 32)
    (havail : (buf.drop (off + 4)).length < 8 * nr) :
    recv_req_pgoffs buf off = none := by
  simp only [recv_req_pgoffs, hb, be32enc_length, be32dec_be32enc nr hnr]
  rw [if_neg (by omega)]
  exact recv_pgoff_loop_short nr buf (off + 4) [] havail

/-- Claim C6: the request parser is atomic on the byte stream.  For any
request r framed by the destination encoder send_req_one and followed by
arbitrary further bytes, the parser returns the request and consumes (skips)
exactly its framed length; and on every strict prefix of the framed bytes
(short command byte, short idstr, or short pgoff array) it returns try-again
without consuming anything. -/
theorem recv_req_atomic (r : UMemReq) (rest : List Nat)
    (hid : r.cmd = .page → 1 ≤ r.idstr.length ∧ r.idstr.length ≤ 255)
    (hnr : r.pgoffs.length < 2 ^ 32)
    (hv : ∀ v ∈ r.pgoffs, v < 2 ^ 64) :
    recv_req (send_req_one r ++ rest) =
      .ok (parsedOf r) (send_req_one r).length
    ∧ ∀ n < (send_req_one r).length,
        recv_req ((send_req_one r).take n) = .again := by
  obtain ⟨cmd, id, offs⟩ := r
  have hnra : offs.length < 2 ^ 32 := hnr
  have hva : ∀ v ∈ offs, v < 2 ^ 64 := hv
  cases cmd with
  | eoc =>
      constructor
      · rfl
      · intro n hn
        have hlen : (send_req_one ⟨.eoc, id, offs⟩).length = 1 := rfl
        rw [hlen] at hn
        have : n = 0 := by omega
        subst this
        rfl
  | page =>
      obtain ⟨hL1, hL2⟩ := hid rfl
      have hL1a : 1 ≤ id.length := hL1
      have hL0 : id.length ≠ 0 := by omega
      have hE := send_req_one_page_eq id offs
      have hlen : (send_req_one ⟨.page, id, offs⟩).length =
          6 + id.length + 8 * offs.length := by
        rw [send_req_one_length]
      constructor
      · -- full parse with trailing bytes
        rw [hlen, hE, List.cons_append, List.cons_append, recv_req_cons_page]
        have htail : (id ++ (be32enc offs.length ++ offs.flatMap be64enc))
            ++ rest =
            id ++ (be32enc offs.length ++
              (offs.flatMap be64enc ++ rest)) := by
          simp [List.append_assoc]
        rw [htail]
        have hids : (id ++ (be32enc offs.length ++
            (offs.flatMap be64enc ++ rest))).take id.length = id :=
          List.take_left _ _
        rw [recv_req_idstr_cons _ _ _ hL0, hids, if_pos rfl]
        simp only []
        have hdrop : ((QEMU_UMEM_REQ_PAGE :: id.length ::
            (id ++ (be32enc offs.length
              ++ (offs.flatMap be64enc ++ rest))))).drop (2 + id.length) =
            be32enc offs.length ++ (offs.flatMap be64enc ++ rest) := by
          have h2 : (2 + id.length) = id.length + 2 := by ring
          rw [h2]
          show (id ++ (be32enc offs.length ++
            (offs.flatMap be64enc ++ rest))).drop id.length = _
          rw [List.drop_left]
        rw [recv_req_pgoffs_ok _ _ offs rest hdrop hnra hva]
        simp only [parsedOf]
        have harith : 2 + id.length + 4 + 8 * offs.length =
            6 + id.length + 8 * offs.length := by ring
        rw [harith]
      · -- strict prefixes give try-again
        intro n hn
        rw [hlen] at hn
        rw [hE]
        match n, hn with
        | 0, _ => rfl
        | 1, _ =>
            rw [List.take_succ_cons, List.take_zero]
            rfl
        | (k + 2), hk =>
            rw [List.take_succ_cons, List.take_succ_cons]
            set tail2 := id ++ (be32enc offs.length ++ offs.flatMap be64enc)
              with htail2
            have htll : tail2.length = id.length + (4 + 8 * offs.length) := by
              rw [htail2, List.length_append, List.length_append,
                be32enc_length, flatMap_be64enc_length]
            rw [recv_req_cons_page]
            have hk4 : k < 4 + id.length + 8 * offs.length := by omega
            rw [recv_req_idstr_cons _ _ _ hL0]
            by_cases hkL : k < id.length
            · -- cut inside the id string
              have hne : ((tail2.take k).take id.length).length
                  ≠ id.length := by
                simp only [List.take_take, List.length_take]
                omega
              rw [if_neg hne]
            · -- id string complete; cut in the count or offset area
              have hids : (tail2.take k).take id.length = id := by
                rw [List.take_take, min_eq_left (by omega), htail2]
                exact List.take_left _ _
              rw [hids, if_pos rfl]
              simp only []
              have hdropk : ((QEMU_UMEM_REQ_PAGE :: id.length ::
                  tail2.take k)).drop (2 + id.length) =
                  (be32enc offs.length ++ offs.flatMap be64enc).take
                    (k - id.length) := by
                have h2 : (2 + id.length) = id.length + 2 := by ring
                rw [h2]
                show (tail2.take k).drop id.length = _
                rw [List.drop_take, htail2, List.drop_left]
              have hb32fm : (be32enc offs.length ++
                  offs.flatMap be64enc).length = 4 + 8 * offs.length := by
                rw [List.length_append, be32enc_length,
                  flatMap_be64enc_length]
              by_cases hk4b : k - id.length < 4
              · -- cut inside the be32 count field
                rw [recv_req_pgoffs_short_count _ _ (by
                  rw [hdropk, List.length_take]
                  omega)]
              · -- count complete, cut inside the be64 offset array
                have hpk4 : peekBuffer (QEMU_UMEM_REQ_PAGE :: id.length ::
                    tail2.take k) (2 + id.length) 4 =
                    be32enc offs.length := by
                  rw [peekBuffer, hdropk, List.take_take,
                    min_eq_left (by omega)]
                  rw [show (4 : Nat) = (be32enc offs.length).length from rfl]
                  exact List.take_left _ _
                rw [recv_req_pgoffs_short_loop _ _ offs.length hpk4 hnra (by
                  rw [← List.drop_drop, hdropk, List.length_drop,
                    List.length_take]
                  omega)]
  | pageCont =>
      have hE := send_req_one_cont_eq id offs
      have hlen : (send_req_one ⟨.pageCont, id, offs⟩).length =
          5 + 8 * offs.length := by
        rw [send_req_one_length]
      constructor
      · rw [hlen, hE, List.cons_append, recv_req_cons_cont]
        have hdrop : ((QEMU_UMEM_REQ_PAGE_CONT ::
            ((be32enc offs.length ++ offs.flatMap be64enc) ++ rest))).drop 1 =
            be32enc offs.length ++ (offs.flatMap be64enc ++ rest) := by
          simp [List.append_assoc]
        rw [recv_req_pgoffs_ok _ _ offs rest hdrop hnra hva]
        simp only [parsedOf]
      · intro n hn
        rw [hlen] at hn
        rw [hE]
        match n, hn with
        | 0, _ => rfl
        | (k + 1), hk =>
            rw [List.take_succ_cons]
            set b32fm := be32enc offs.length ++ offs.flatMap be64enc
              with hb32fm
            have hbl : b32fm.length = 4 + 8 * offs.length := by
              rw [hb32fm, List.length_append, be32enc_length,
                flatMap_be64enc_length]
            rw [recv_req_cons_cont]
            have hdrop1 : ((QEMU_UMEM_REQ_PAGE_CONT ::
                b32fm.take k)).drop 1 = b32fm.take k := rfl
            by_cases hk4 : k < 4
            · rw [recv_req_pgoffs_short_count _ _ (by
                rw [hdrop1, List.length_take]
                omega)]
            · have hpk4 : peekBuffer (QEMU_UMEM_REQ_PAGE_CONT ::
                  b32fm.take k) 1 4 = be32enc offs.length := by
                rw [peekBuffer, hdrop1, List.take_take,
                  min_eq_left (by omega), hb32fm]
                rw [show (4 : Nat) = (be32enc offs.length).length from rfl]
                exact List.take_left _ _
              rw [recv_req_pgoffs_short_loop _ _ offs.length hpk4 hnra (by
                rw [← List.drop_drop, hdrop1, List.length_drop,
                  List.length_take]
                omega)]

/-- Witness for the C6 atomicity theorem at a concrete request: a PAGE
request for offset 5 in block "a" parses back exactly with its framed
length consumed, and the 3-byte prefix gives try-again. -/
theorem recv_req_atomic_witness :
    recv_req (send_req_one ⟨.page, [97], [5]⟩ ++ []) =
      .ok (parsedOf ⟨.page, [97], [5]⟩)
        (send_req_one ⟨.page, [97], [5]⟩).length
    ∧ recv_req ((send_req_one ⟨.page, [97], [5]⟩).take 3) = .again := by
  have h := recv_req_atomic ⟨.page, [97], [5]⟩ [] (by decide) (by decide)
    (by decide)
  exact ⟨h.1, h.2 3 (by decide)⟩

/-! ## Source outgoing scheduler (postcopy_outgoing_* state machine)

The source engine is single threaded and event driven.  The embedding keeps
one RAM block (requests name their block by idstr; nothing in the checked
properties depends on having several), a page-granularity view of
ram_save_page, and abstracts one select tick into an event: the read fd
became readable and the buffered requests were drained, or the write fd
became writable and the background loop ran k iterations of
ram_save_block before breaking for rate limiting or a pending request. -/

inductive POState : Type
  | active
  | eocReceived
  | allPagesSent
  | completed
  | errorReceive
deriving DecidableEq, Repr

structure OutCfg : Type where
  targetPageBits : Nat
  blockLenBytes : Nat
  prefault_forward : Nat
  prefault_backward : Nat
  noBackground : Bool

/-- postcopy_outgoing_ram_save_page: offset the requested page by the
prefault distance (skipping a backward prefault that would underflow),
then send it unless the byte offset falls outside the block. -/
def ram_save_page (cfg : OutCfg) (pgoffset : Nat) (forward : Bool)
    (prefault_pgoffset : Nat) : Option Nat :=
  match forward with
  | true =>
      let p := pgoffset + prefault_pgoffset
      if p <<< cfg.targetPageBits ≥ cfg.blockLenBytes then none else some p
  | false =>
      if pgoffset < prefault_pgoffset then none
      else
        let p := pgoffset - prefault_pgoffset
        if p <<< cfg.targetPageBits ≥ cfg.blockLenBytes then none else some p

/-- The page-sending sequence of postcopy_outgoing_handle_req for a
PAGE/PAGE_CONT request: each requested page in order, then the forward
prefault loops (j = 1..prefault_forward, inner loop over the request), then
the backward prefault loops. -/
def handle_req_pages (cfg : OutCfg) (pgoffs : List Nat) : List Nat :=
  pgoffs.filterMap (fun p => ram_save_page cfg p true 0)
    ++ (List.range cfg.prefault_forward).flatMap
        (fun j => pgoffs.filterMap (fun p => ram_save_page cfg p true (j + 1)))
    ++ (List.range cfg.prefault_backward).flatMap
        (fun j => pgoffs.filterMap (fun p => ram_save_page cfg p false (j + 1)))

/-- A request as seen by postcopy_outgoing_handle_req; for PAGE, whether
ram_find_block finds the named block. -/
inductive OutReq : Type
  | eoc
  | page (known : Bool) (pgoffs : List Nat)
  | pageCont (pgoffs : List Nat)
deriving DecidableEq, Repr

/-- Bytes put on the migration stream by the outgoing engine. -/
inductive OutPut : Type
  | page (pgoff : Nat)
  | eos
deriving DecidableEq, Repr

/-- postcopy_outgoing_handle_req: new state, stream writes, return value
(1 = completed command processing, 0 = continue, negative = error). -/
def handle_req (cfg : OutCfg) (s : POState) (r : OutReq) :
    POState × List OutPut × Int :=
  match r with
  | .eoc =>
      (if s = .allPagesSent then .completed else .eocReceived, [], 1)
  | .page known offs =>
      if ¬ known then (s, [], -22)
      else if s = .allPagesSent then (s, [], 0)
      else (s, (handle_req_pages cfg offs).map .page, 0)
  | .pageCont offs =>
      if s = .allPagesSent then (s, [], 0)
      else (s, (handle_req_pages cfg offs).map .page, 0)

/-- The request-draining loop of postcopy_outgoing_recv_handler: handle
buffered requests while the return value is 0; on a negative return value
latch the error state (ACTIVE becomes ERROR_RECEIVE, ALL_PAGES_SENT becomes
COMPLETED). -/
def recv_handler (cfg : OutCfg) : POState → List OutReq →
    POState × List OutPut
  | s, [] => (s, [])
  | s, r :: rs =>
      let x := handle_req cfg s r
      if x.2.2 = 0 then
        let y := recv_handler cfg x.1 rs
        (y.1, x.2.1 ++ y.2)
      else if x.2.2 > 0 then (x.1, x.2.1)
      else
        (match x.1 with
          | .active => .errorReceive
          | .allPagesSent => .completed
          | s1 => s1, x.2.1)

/-- The whole-engine state: scheduler state plus the pages the background
walk of the dirty bitmap would still push, in order.  (The background
iterator advance on prefault is part of which pages remain, which the run
events carry; it does not affect the checked property.) -/
structure OutMachine : Type where
  po : POState
  bg : List Nat
deriving DecidableEq, Repr

/-- postcopy_outgoing_ram_save_background: from EOC_RECEIVED write the
END-OF-STREAM marker and complete; from ERROR_RECEIVE return an error; from
ACTIVE run up to k iterations of ram_save_block, entering ALL_PAGES_SENT
with an END-OF-STREAM marker when the dirty bitmap is exhausted. -/
def ram_save_background (cfg : OutCfg) (m : OutMachine) (k : Nat) :
    OutMachine × List OutPut :=
  match m.po with
  | .eocReceived => ({ m with po := .completed }, [.eos])
  | .errorReceive => (m, [])
  | .active =>
      if cfg.noBackground then
        if m.bg.isEmpty then ({ m with po := .allPagesSent }, [.eos])
        else (m, [])
      else
        if m.bg.length < k then
          ({ po := .allPagesSent, bg := [] }, m.bg.map .page ++ [.eos])
        else
          ({ m with bg := m.bg.drop k }, (m.bg.take k).map .page)
  | _ => (m, [])

/-- One select tick. -/
inductive OutEvent : Type
  | recvReady (reqs : List OutReq)
  | writeReady (k : Nat)

/-- One iteration of postcopy_outgoing_loop: in COMPLETED or ERROR_RECEIVE
the postcopy_outgoing while loop has exited; otherwise the read fd is in the
select set only in ACTIVE or ALL_PAGES_SENT, and the write fd only in
ACTIVE or EOC_RECEIVED. -/
def loop_step (cfg : OutCfg) (m : OutMachine) (e : OutEvent) :
    OutMachine × List OutPut :=
  if m.po = .completed ∨ m.po = .errorReceive then (m, [])
  else match e with
  | .recvReady reqs =>
      if m.po = .active ∨ m.po = .allPagesSent then
        let y := recv_handler cfg m.po reqs
        ({ m with po := y.1 }, y.2)
      else (m, [])
  | .writeReady k =>
      if m.po = .active ∨ m.po = .eocReceived then
        ram_save_background cfg m k
      else (m, [])

/-- Run the outgoing loop over a sequence of select ticks. -/
def outgoing_run (cfg : OutCfg) (m : OutMachine) :
    List OutEvent → OutMachine × List OutPut
  | [] => (m, [])
  | e :: es =>
      let x := loop_step cfg m e
      let y := outgoing_run cfg x.1 es
      (y.1, x.2 ++ y.2)

theorem loop_step_after_eoc (cfg : OutCfg) (m : OutMachine) (e : OutEvent)
    (h : m.po = .eocReceived ∨ m.po = .completed) :
    ((loop_step cfg m e).1.po = .eocReceived
      ∨ (loop_step cfg m e).1.po = .completed)
    ∧ ∀ o ∈ (loop_step cfg m e).2, o = OutPut.eos := by
  rcases h with h | h
  · cases e with
    | recvReady reqs =>
        simp [loop_step, h]
    | writeReady k =>
        simp [loop_step, h, ram_save_background]
  · simp [loop_step, h]

theorem outgoing_run_after_eoc (cfg : OutCfg) :
    ∀ (evs : List OutEvent) (m : OutMachine),
      m.po = .eocReceived ∨ m.po = .completed →
      ∀ o ∈ (outgoing_run cfg m evs).2, o = OutPut.eos := by
  intro evs
  induction evs with
  | nil =>
      intro m _ o ho
      simp [outgoing_run] at ho
  | cons e es ih =>
      intro m h o ho
      have hstep := loop_step_after_eoc cfg m e h
      rw [outgoing_run] at ho
      simp only [List.mem_append] at ho
      rcases ho with ho | ho
      · exact hstep.2 o ho
      · exact ih _ hstep.1 o ho

/-- Claim C4: receiving EOC moves the source to COMPLETED when it was
ALL_PAGES_SENT and to EOC_RECEIVED otherwise; and from EOC_RECEIVED on, no
page data is ever written to the stream: every subsequent write in any run
of the outgoing loop is the END-OF-STREAM marker. -/
theorem outgoing_eoc_quiescence (cfg : OutCfg) :
    (∀ s : POState, handle_req cfg s .eoc =
      (if s = .allPagesSent then .completed else .eocReceived, [], 1))
    ∧ ∀ (m : OutMachine) (evs : List OutEvent), m.po = .eocReceived →
        (outgoing_run cfg m evs).2 =
          List.replicate (outgoing_run cfg m evs).2.length OutPut.eos := by
  constructor
  · intro s
    rfl
  · intro m evs h
    exact List.eq_replicate_length.mpr
      (outgoing_run_after_eoc cfg evs m (Or.inl h))

/-- Witness for C4 at a concrete machine: one write tick after EOC_RECEIVED
emits only the END-OF-STREAM marker, then a spurious read tick emits
nothing, even with background pages still unsent. -/
theorem outgoing_eoc_quiescence_witness :
    (handle_req ⟨12, 40960, 2, 1, false⟩ .active .eoc =
      (if POState.active = .allPagesSent then .completed
        else .eocReceived, [], 1))
    ∧ (outgoing_run ⟨12, 40960, 2, 1, false⟩ ⟨.eocReceived, [3, 4]⟩
        [.writeReady 1, .recvReady [.page true [1]]]).2 =
        List.replicate (outgoing_run ⟨12, 40960, 2, 1, false⟩
          ⟨.eocReceived, [3, 4]⟩
          [.writeReady 1, .recvReady [.page true [1]]]).2.length OutPut.eos :=
  ⟨(outgoing_eoc_quiescence ⟨12, 40960, 2, 1, false⟩).1 .active,
   (outgoing_eoc_quiescence ⟨12, 40960, 2, 1, false⟩).2 _ _ rfl⟩

theorem ram_save_page_forward (cfg : OutCfg) (p j : Nat) :
    ram_save_page cfg p true j =
      if (p + j) <<< cfg.targetPageBits < cfg.blockLenBytes then some (p + j)
      else none := by
  simp only [ram_save_page]
  by_cases h : (p + j) <<< cfg.targetPageBits < cfg.blockLenBytes
  · rw [if_neg (by omega), if_pos h]
  · rw [if_pos (by omega), if_neg h]

theorem ram_save_page_backward (cfg : OutCfg) (p j : Nat)
    (hp : p <<< cfg.targetPageBits < cfg.blockLenBytes) :
    ram_save_page cfg p false j =
      if j ≤ p then some (p - j) else none := by
  simp only [ram_save_page]
  by_cases h : p < j
  · rw [if_pos h, if_neg (by omega)]
  · have hmono : (p - j) <<< cfg.targetPageBits ≤ p <<< cfg.targetPageBits := by
      simp only [Nat.shiftLeft_eq]
      exact Nat.mul_le_mul_right _ (Nat.sub_le p j)
    rw [if_neg h, if_neg (by omega), if_pos (by omega)]

theorem flatMap_filterMap_singleton (r : List Nat)
    (g : Nat → Nat → Option Nat) (p : Nat) :
    r.flatMap (fun j => [p].filterMap (fun q => g j q)) =
      r.filterMap (fun j => g j p) := by
  induction r with
  | nil => rfl
  | cons j js ih =>
      rw [List.flatMap_cons, List.filterMap_cons, ih]
      cases h : g j p <;> simp [List.filterMap_cons, h]

/-- Claim C5: servicing a PAGE request for an in-range page p sends p first,
then the forward prefault pages p+1 .. p+prefault_forward (each only if its
offset is still inside the block), then the backward prefault pages
p-1 .. p-prefault_backward (each only if it does not underflow the block
start), in exactly that order. -/
theorem handle_req_prefault_order (cfg : OutCfg) (p : Nat)
    (hp : p <<< cfg.targetPageBits < cfg.blockLenBytes) :
    handle_req_pages cfg [p] =
      p :: ((List.range cfg.prefault_forward).filterMap (fun j =>
          if (p + (j + 1)) <<< cfg.targetPageBits < cfg.blockLenBytes
          then some (p + (j + 1)) else none)
        ++ (List.range cfg.prefault_backward).filterMap (fun j =>
          if j + 1 ≤ p then some (p - (j + 1)) else none)) := by
  simp only [handle_req_pages]
  have hhead : [p].filterMap (fun q => ram_save_page cfg q true 0) = [p] := by
    simp [List.filterMap_cons, ram_save_page_forward, hp]
  have hfwd : (List.range cfg.prefault_forward).flatMap
      (fun j => [p].filterMap (fun q => ram_save_page cfg q true (j + 1))) =
      (List.range cfg.prefault_forward).filterMap (fun j =>
        if (p + (j + 1)) <<< cfg.targetPageBits < cfg.blockLenBytes
        then some (p + (j + 1)) else none) := by
    rw [flatMap_filterMap_singleton]
    exact List.filterMap_congr (fun j _ => ram_save_page_forward cfg p (j + 1))
  have hbwd : (List.range cfg.prefault_backward).flatMap
      (fun j => [p].filterMap (fun q => ram_save_page cfg q false (j + 1))) =
      (List.range cfg.prefault_backward).filterMap (fun j =>
        if j + 1 ≤ p then some (p - (j + 1)) else none) := by
    rw [flatMap_filterMap_singleton]
    exact List.filterMap_congr
      (fun j _ => ram_save_page_backward cfg p (j + 1) hp)
  rw [hhead, hfwd, hbwd, List.append_assoc, List.singleton_append]

/-- Witness for C5, the worked example of the specification: prefault
windows forward 2 and backward 1, page 5 touched in a 10-page block of 4 KiB
pages, pages 5, 6, 7, 4 sent in that order. -/
theorem handle_req_prefault_order_witness :
    handle_req_pages ⟨12, 40960, 2, 1, false⟩ [5] = [5, 6, 7, 4] := by
  rw [handle_req_prefault_order ⟨12, 40960, 2, 1, false⟩ 5 (by decide)]
  decide

/-! ## Clean-bitmap sender (postcopy_outgoing_send_clean_bitmap)

The migration dirty bitmap is a predicate on target-page indices; the
sender walks one block from target-page index start to end (exclusive) and
emits one u64 per 64 pages plus a final partial word. -/

/-- postcopy_bitmap_to_uint64 on the 64-bit window at i of the dirty
bitmap: bit j is set iff page i + j is dirty (the aligned branch reads the
word of the bitmap containing bit i, which starts at i when i is a multiple
of 64). -/
def dirty_word (dirty : Nat → Bool) (i : Nat) : Nat :=
  (List.range 64).foldl
    (fun acc j => if dirty (i + j) then acc + 2 ^ j else acc) 0

/-- One word of the aligned branch: val = ~postcopy_bitmap_to_uint64(...),
the 64-bit complement of the dirty word. -/
def clean_word_aligned (dirty : Nat → Bool) (i : Nat) : Nat :=
  2 ^ 64 - 1 - dirty_word dirty i

/-- One word of the unaligned branch: bitmap_zero(tmp, 64) then
for (j = 0; j < 63; j++) if (!test_bit(i + j, bitmap)) set_bit(j, tmp). -/
def clean_word_unaligned (dirty : Nat → Bool) (i : Nat) : Nat :=
  (List.range 63).foldl
    (fun acc j => if dirty (i + j) then acc else acc + 2 ^ j) 0

/-- The final partial word: for (i = end_uint64; i < end; i++)
if (!test_bit(i, bitmap)) set_bit(i - end_uint64, tmp). -/
def clean_word_tail (dirty : Nat → Bool) (e64 e : Nat) : Nat :=
  (List.range (e - e64)).foldl
    (fun acc j => if dirty (e64 + j) then acc else acc + 2 ^ j) 0

/-- The u64 words which postcopy_outgoing_send_clean_bitmap emits for one
block covering target pages start to e (exclusive):
end_uint64 = start + ((e - start) & ~63), then the full words from the
aligned or the unaligned branch, then the partial word if any. -/
def send_clean_bitmap_words (dirty : Nat → Bool) (start e : Nat) :
    List Nat :=
  let e64 := start + ((e - start) / 64) * 64
  (if start % 64 = 0 then
    (List.range ((e - start) / 64)).map
      (fun k => clean_word_aligned dirty (start + 64 * k))
  else
    (List.range ((e - start) / 64)).map
      (fun k => clean_word_unaligned dirty (start + 64 * k)))
  ++ (if e64 < e then [clean_word_tail dirty e64 e] else [])

/-- Modelled from the spec (section 4.1, claim C3): each u64 word of the
clean bitmap is the bitwise complement of the dirty bitmap for the 64
target pages it covers (bit j set iff page i + j is clean). -/
def spec_clean_word (dirty : Nat → Bool) (i : Nat) : Nat :=
  (List.range 64).foldl
    (fun acc j => if dirty (i + j) then acc else acc + 2 ^ j) 0

/-- Claim C3 fails on the code: for a block whose first target-page index is
not 64-aligned (start = 1 here, 64 pages, nothing dirty) the emitted word is
2^63 - 1 - bit 63 is never set by the unaligned branch (its loop stops at
j = 62), while the complement word of 64 clean pages is 2^64 - 1.  The
aligned branch (start = 0) does emit the full complement. -/
theorem clean_bitmap_unaligned_drops_bit63 :
    send_clean_bitmap_words (fun _ => false) 1 65 = [2 ^ 63 - 1]
    ∧ spec_clean_word (fun _ => false) 1 = 2 ^ 64 - 1
    ∧ (2 ^ 63 - 1 : Nat) ≠ 2 ^ 64 - 1
    ∧ send_clean_bitmap_words (fun _ => false) 0 64 = [2 ^ 64 - 1] := by
  refine ⟨by decide, by decide, by decide, by decide⟩

/-! ## Destination INIT section loader (postcopy_incoming_loadvm_init) -/

def POSTCOPY_OPTION_PRECOPY : Nat := 1

/-- postcopy_incoming_loadvm_init: the payload must be exactly a u64
(size = 8); bit 0 of the option mask enables precopy (recorded even before
the remaining bits are validated, as the code sets umemd.precopy_enabled
first); any other set bit is -ENOSYS; then the transport must be read/write
unless RDMA, mem_path must be unset, and postcopy_incoming_prepare may
fail.  Returns the precopy flag on success.  options & ~PRECOPY is
options - options % 2 since POSTCOPY_OPTION_PRECOPY = 1. -/
def postcopy_incoming_loadvm_init (size : Nat) (options : Nat)
    (is_rdma writable mem_path : Bool) (prepare_err : Option Int) :
    Except Int Bool :=
  if size ≠ 8 then .error (-22)
  else
    let precopy_enabled := options % 2 = 1
    if options - options % 2 ≠ 0 then .error (-38)
    else if ¬ is_rdma ∧ ¬ writable then .error (-22)
    else if mem_path then .error (-38)
    else match prepare_err with
      | some e => .error e
      | none => .ok precopy_enabled

/-- Claim C7: the INIT loader fails when the payload size is not 8 bytes;
it fails when any option bit other than PRECOPY (bit 0) is set; and when it
accepts, precopy mode is enabled exactly when the PRECOPY bit was set. -/
theorem loadvm_init_options (size options : Nat)
    (is_rdma writable mem_path : Bool) (prepare_err : Option Int) :
    (size ≠ 8 →
      postcopy_incoming_loadvm_init size options is_rdma writable mem_path
        prepare_err = .error (-22))
    ∧ (options - options % 2 ≠ 0 →
      postcopy_incoming_loadvm_init 8 options is_rdma writable mem_path
        prepare_err = .error (-38))
    ∧ (∀ b, postcopy_incoming_loadvm_init size options is_rdma writable
        mem_path prepare_err = .ok b → (b = true ↔ options % 2 = 1)) := by
  refine ⟨?_, ?_, ?_⟩
  · intro h
    simp only [postcopy_incoming_loadvm_init]
    rw [if_pos h]
  · intro h
    simp only [postcopy_incoming_loadvm_init]
    rw [if_neg (by omega), if_pos h]
  · intro b hb
    simp only [postcopy_incoming_loadvm_init] at hb
    by_cases hsz : size ≠ 8
    · rw [if_pos hsz] at hb
      exact absurd hb (by simp)
    · rw [if_neg hsz] at hb
      by_cases hop : options - options % 2 ≠ 0
      · rw [if_pos hop] at hb
        exact absurd hb (by simp)
      · rw [if_neg hop] at hb
        by_cases hrw : ¬ is_rdma ∧ ¬ writable
        · rw [if_pos hrw] at hb
          exact absurd hb (by simp)
        · rw [if_neg hrw] at hb
          by_cases hmp : mem_path = true
          · rw [if_pos hmp] at hb
            exact absurd hb (by simp)
          · rw [if_neg hmp] at hb
            cases prepare_err with
            | some e => exact absurd hb (by simp)
            | none =>
                simp only [Except.ok.injEq] at hb
                subst hb
                simp

/-- Witness for C7: size 9 is rejected, an option mask with bit 1 set is
rejected, and a valid INIT with only the PRECOPY bit enables precopy. -/
theorem loadvm_init_options_witness :
    postcopy_incoming_loadvm_init 9 0 false true false none = .error (-22)
    ∧ postcopy_incoming_loadvm_init 8 2 false true false none = .error (-38)
    ∧ (decide (1 % 2 = 1) = true ↔ 1 % 2 = 1) := by
  refine ⟨?_, ?_, ?_⟩
  · exact (loadvm_init_options 9 0 false true false none).1 (by decide)
  · exact (loadvm_init_options 8 2 false true false none).2.1 (by decide)
  · exact (loadvm_init_options 8 1 false true false none).2.2
      (decide (1 % 2 = 1)) rfl

/-! ## Destination umem daemon: request builder and receive path

Page-size bookkeeping as computed in postcopy_incoming_prepare.  Division
is C integer division, so nr_host_pages_per_target_page is 0 when the host
page is larger than the target page, and symmetrically; the
ffs(x) - 1 shifts are log2 for the nonzero ratio of each branch. -/

structure UMemDCfg : Type where
  targetPageBits : Nat
  host_page_shift : Nat
deriving DecidableEq, Repr

def UMemDCfg.targetPageSize (c : UMemDCfg) : Nat := 2 ^ c.targetPageBits

def UMemDCfg.host_page_size (c : UMemDCfg) : Nat := 2 ^ c.host_page_shift

def UMemDCfg.nr_host_pages_per_target_page (c : UMemDCfg) : Nat :=
  c.targetPageSize / c.host_page_size

def UMemDCfg.nr_target_pages_per_host_page (c : UMemDCfg) : Nat :=
  c.host_page_size / c.targetPageSize

/-- ffs(x) - 1 of the C code for the power-of-two page-count ratios (the
number of trailing zero bits); structurally recursive on a fuel bound so
that it evaluates inside the kernel. -/
def ffs1 : Nat → Nat → Nat
  | 0, _ => 0
  | fuel + 1, n => if n ≤ 1 then 0 else ffs1 fuel (n / 2) + 1

def UMemDCfg.host_to_target_page_shift (c : UMemDCfg) : Nat :=
  ffs1 c.nr_target_pages_per_host_page c.nr_target_pages_per_host_page

def UMemDCfg.target_to_host_page_shift (c : UMemDCfg) : Nat :=
  ffs1 c.nr_host_pages_per_target_page c.nr_host_pages_per_target_page

/-- test_and_set_bit on a bitmap represented as a predicate. -/
def set_bit_fn (f : Nat → Bool) (b : Nat) : Nat → Bool :=
  fun x => if x = b then true else f x

/-- The TARGET_PAGE_SIZE < host_page_size branch of
postcopy_incoming_umem_send_page_req: each faulted host page covers
nr_target_pages_per_host_page target pages; the host page is already clean
when every one of them is clean (under precopy) or received, else every
underlying target page gets test_and_set(phys_requested) and the newly set
ones are put in the request.  Result: updated phys_requested, the
mark_cached list (host pgoffs), the request pgoffs (target pgoffs). -/
def send_page_req_small_target (cfg : UMemDCfg) (precopy_enabled : Bool)
    (clean_bitmap phys_received : Nat → Bool)
    (phys_requested : Nat → Bool) (faults : List Nat) :
    (Nat → Bool) × List Nat × List Nat :=
  faults.foldl
    (fun acc pgoff =>
      let target_pgoff := pgoff <<< cfg.host_to_target_page_shift
      let marked_clean := (List.range cfg.nr_target_pages_per_host_page).all
        (fun j => (precopy_enabled && clean_bitmap (target_pgoff + j))
          || phys_received (target_pgoff + j))
      if marked_clean then (acc.1, acc.2.1 ++ [pgoff], acc.2.2)
      else
        (List.range cfg.nr_target_pages_per_host_page).foldl
          (fun acc2 j =>
            let t := target_pgoff + j
            if acc2.1 t then acc2
            else (set_bit_fn acc2.1 t, acc2.2.1, acc2.2.2 ++ [t]))
          acc)
    (phys_requested, [], [])

/-- postcopy_incoming_umem_ram_loaded: record the loaded target page in
phys_received; when target pages are at least host-page sized, mark all
host pages under it cached; otherwise mark the containing host page cached
once all target pages under it are received.  The C masks the target-page
index with ~(nr_host_pages_per_target_page - 1) in 32-bit int arithmetic,
and ~(x - 1) in two's complement is (2^32 - x) % 2^32. -/
def umem_ram_loaded (cfg : UMemDCfg) (phys_received : Nat → Bool)
    (offset : Nat) : (Nat → Bool) × List Nat :=
  let bit := offset >>> cfg.targetPageBits
  if phys_received bit then (phys_received, [])
  else
    let phys_received := set_bit_fn phys_received bit
    if cfg.targetPageSize ≥ cfg.host_page_size then
      let pgoff := offset >>> cfg.host_page_shift
      (phys_received,
        (List.range cfg.nr_host_pages_per_target_page).map (pgoff + ·))
    else
      let bit2 := bit &&&
        ((2 ^ 32 - cfg.nr_host_pages_per_target_page) % 2 ^ 32)
      let mark_cache := (List.range cfg.nr_target_pages_per_host_page).all
        (fun i => phys_received (bit2 + i))
      (phys_received,
        if mark_cache then [offset >>> cfg.host_page_shift] else [])

/-- Claim C1, evaluated on the code.  Host pages of 8 KiB over 4 KiB target
pages (N = 2).  The request-builder half of the claim holds: one host-page
fault on host page 3 of a fresh block yields exactly the N = 2 target-page
requests 6 and 7, both test_and_set in phys_requested.  The receive-side
half fails: with target pages 0 and 1 (host page 0) already received,
loading target page 2 calls mark_cached for host page 1 even though target
page 3 has never been received, because the masking of the target-page
index uses nr_host_pages_per_target_page, which is 0 in this branch, so the
check always inspects target pages 0..N-1 of the block. -/
theorem umem_host_target_split :
    ((send_page_req_small_target ⟨12, 13⟩ false (fun _ => false)
        (fun _ => false) (fun _ => false) [3]).2.2 = [6, 7]
      ∧ (send_page_req_small_target ⟨12, 13⟩ false (fun _ => false)
        (fun _ => false) (fun _ => false) [3]).1 6 = true
      ∧ (send_page_req_small_target ⟨12, 13⟩ false (fun _ => false)
        (fun _ => false) (fun _ => false) [3]).1 7 = true
      ∧ (send_page_req_small_target ⟨12, 13⟩ false (fun _ => false)
        (fun _ => false) (fun _ => false) [3]).2.1 = [])
    ∧ ((umem_ram_loaded ⟨12, 13⟩ (fun b => b == 0 || b == 1)
        (2 <<< 12)).2 = [1]
      ∧ (umem_ram_loaded ⟨12, 13⟩ (fun b => b == 0 || b == 1)
        (2 <<< 12)).1 3 = false) := by
  refine ⟨⟨by decide, by decide, by decide, by decide⟩, by decide, by decide⟩

/-! ## Clean-bitmap reader and daemon error path (claim C8) -/

def UMEM_STATE_ERROR_REQ : Nat := 0x1000
def UMEM_STATE_ERROR_SENDING : Nat := 0x2000
def UMEM_STATE_ERROR_SENT : Nat := 0x3000

/-- postcopy_incoming_umem_error_req: latch ERROR_REQ in the daemon state
word. -/
def umem_error_req (st : Nat) : Nat := st ||| UMEM_STATE_ERROR_REQ

/-- postcopy_incoming_umemd_read_clean_bitmap: reject a bitmap length which
is not a multiple of 8 bytes, and an unknown block id, with -EINVAL before
reading the bitmap payload; on success the payload is loaded into
phys_received (returned here). -/
def umemd_read_clean_bitmap (bitmap_length : Nat) (block_known : Bool)
    (payload : List Nat) : Except Int (List Nat) :=
  if bitmap_length % 8 ≠ 0 then .error (-22)
  else if ¬ block_known then .error (-22)
  else .ok payload

def exceptFails {ε α : Type} : Except ε α → Bool
  | .error _ => true
  | .ok _ => false

/-- postcopy_incoming_umemd_thread: when the init function (for the
mig-read thread, postcopy_incoming_umemd_mig_read_init, which loads the
clean bitmap) fails, call postcopy_incoming_umem_error_req and return
before entering the loop (second component: the thread halted). -/
def umemd_thread_init (st : Nat) (init_fails : Bool) : Nat × Bool :=
  if init_fails then (umem_error_req st, true) else (st, false)

/-- Commands on the daemon-to-supervisor pipe. -/
inductive DaemonCmd : Type
  | error
  | quit
deriving DecidableEq, Repr

/-- The ERROR_REQ service in postcopy_incoming_umemd_pipe_loop: when
ERROR_REQ is set and ERROR_SENDING is not, send the ERROR command to the
supervisor and mark ERROR_SENDING then ERROR_SENT. -/
def pipe_loop_error_check (st : Nat) : Nat × List DaemonCmd :=
  if st &&& UMEM_STATE_ERROR_REQ ≠ 0 ∧ st &&& UMEM_STATE_ERROR_SENDING = 0
  then ((st ||| UMEM_STATE_ERROR_SENDING) ||| UMEM_STATE_ERROR_SENT,
    [.error])
  else (st, [])

/-- Claim C8: a clean-bitmap record whose bitmap length is not a multiple
of 8 makes the reader return -EINVAL without loading anything; the reading
thread then halts (the migration aborts) with ERROR_REQ latched into the
state word, from which the pipe thread sends ERROR to the supervisor. -/
theorem clean_bitmap_bad_length_error (len : Nat) (block_known : Bool)
    (payload : List Nat) (st : Nat)
    (hlen : len % 8 ≠ 0) (hsend : st &&& UMEM_STATE_ERROR_SENDING = 0) :
    umemd_read_clean_bitmap len block_known payload = .error (-22)
    ∧ umemd_thread_init st
        (exceptFails (umemd_read_clean_bitmap len block_known payload)) =
        (st ||| UMEM_STATE_ERROR_REQ, true)
    ∧ (st ||| UMEM_STATE_ERROR_REQ) &&& UMEM_STATE_ERROR_REQ ≠ 0
    ∧ pipe_loop_error_check (st ||| UMEM_STATE_ERROR_REQ) =
        (((st ||| UMEM_STATE_ERROR_REQ) ||| UMEM_STATE_ERROR_SENDING) |||
          UMEM_STATE_ERROR_SENT, [.error]) := by
  have herr : umemd_read_clean_bitmap len block_known payload =
      .error (-22) := by
    simp only [umemd_read_clean_bitmap]
    rw [if_pos hlen]
  have hreqbit : (st ||| UMEM_STATE_ERROR_REQ) &&& UMEM_STATE_ERROR_REQ
      ≠ 0 := by
    intro h0
    have htb := congrArg (fun n => n.testBit 12) h0
    have h12 : Nat.testBit UMEM_STATE_ERROR_REQ 12 = true := by decide
    simp only [Nat.testBit_and, Nat.testBit_or, h12, Bool.or_true,
      Bool.and_self, Nat.zero_testBit] at htb
    exact absurd htb (by decide)
  have hsendbit : (st ||| UMEM_STATE_ERROR_REQ) &&&
      UMEM_STATE_ERROR_SENDING = 0 := by
    apply Nat.eq_of_testBit_eq
    intro i
    have h1 := congrArg (fun n => n.testBit i) hsend
    have h02 : UMEM_STATE_ERROR_REQ &&& UMEM_STATE_ERROR_SENDING = 0 := by
      decide
    have h2 := congrArg (fun n => n.testBit i) h02
    simp only [Nat.testBit_and, Nat.testBit_or, Nat.zero_testBit] at h1 h2 ⊢
    cases hst : st.testBit i <;>
      cases hreq : Nat.testBit UMEM_STATE_ERROR_REQ i <;>
      cases hsnd : Nat.testBit UMEM_STATE_ERROR_SENDING i <;>
      simp_all
  refine ⟨herr, ?_, hreqbit, ?_⟩
  · rw [herr]
    simp [umemd_thread_init, exceptFails, umem_error_req]
  · simp only [pipe_loop_error_check]
    rw [if_pos ⟨hreqbit, hsendbit⟩]

/-- Witness for C8: a 4-byte bitmap record on a fresh daemon state. -/
theorem clean_bitmap_bad_length_error_witness :
    umemd_read_clean_bitmap 4 true [] = .error (-22)
    ∧ umemd_thread_init 0 (exceptFails (umemd_read_clean_bitmap 4 true [])) =
        (0 ||| UMEM_STATE_ERROR_REQ, true)
    ∧ (0 ||| UMEM_STATE_ERROR_REQ) &&& UMEM_STATE_ERROR_REQ ≠ 0
    ∧ pipe_loop_error_check (0 ||| UMEM_STATE_ERROR_REQ) =
        (((0 ||| UMEM_STATE_ERROR_REQ) ||| UMEM_STATE_ERROR_SENDING) |||
          UMEM_STATE_ERROR_SENT, [.error]) :=
  clean_bitmap_bad_length_error 4 true [] 0 (by decide) (by decide)

/-! ## Fault-pipe readers (claim C10)

Both postcopy_incoming_fault_loop and postcopy_incoming_umemd_fault_loop
read byte chunks from their pipe into a buffer at the current offset,
process nreq = offset / 8 complete u64 host-page offsets, and memmove the
trailing offset % 8 bytes to the front of the buffer for the next read. -/

/-- The complete 8-byte (u64) groups at the front of a byte stream. -/
def groups8 (l : List Nat) : List (List Nat) :=
  if l.length < 8 then [] else l.take 8 :: groups8 (l.drop 8)
termination_by l.length
decreasing_by
  simp only [List.length_drop]
  omega

/-- One body iteration of postcopy_incoming_fault_loop after a read of
chunk bytes: offset += ret; nreq = offset / 8; the first nreq u64s are
processed (page materialization and the atomic forward write of exactly
nreq * 8 bytes), then memmove(buf, buf + nreq * 8, offset - nreq * 8).
Returns the new buffer contents and the processed u64s as byte groups. -/
def incoming_fault_loop_step (buf chunk : List Nat) :
    List Nat × List (List Nat) :=
  let all := buf ++ chunk
  let nreq := all.length / 8
  (all.drop (8 * nreq), groups8 all)

/-- One body iteration of postcopy_incoming_umemd_fault_loop: the same
buffer discipline, with umemd.offset &= sizeof(u64) - 1 (the new offset,
all.length % 8, is the length of the dropped remainder) and the memmove
from buf + nreq * 8. -/
def umemd_fault_loop_step (buf chunk : List Nat) :
    List Nat × List (List Nat) :=
  let all := buf ++ chunk
  let nreq := all.length / 8
  (all.drop (8 * nreq), groups8 all)

/-- Run a fault-pipe reader over a sequence of reads. -/
def fault_loop_run (step : List Nat → List Nat → List Nat × List (List Nat))
    (buf : List Nat) : List (List Nat) → List Nat × List (List Nat)
  | [] => (buf, [])
  | c :: cs =>
      let x := step buf c
      let y := fault_loop_run step x.1 cs
      (y.1, x.2 ++ y.2)

theorem groups8_of_short (l : List Nat) (h : l.length < 8) :
    groups8 l = [] := by
  rw [groups8, if_pos h]

theorem groups8_of_long (l : List Nat) (h : ¬ l.length < 8) :
    groups8 l = l.take 8 :: groups8 (l.drop 8) := by
  rw [groups8, if_neg h]

theorem groups8_append_aux :
    ∀ n (a b : List Nat), a.length ≤ n → a.length % 8 = 0 →
      groups8 (a ++ b) = groups8 a ++ groups8 b := by
  intro n
  induction n with
  | zero =>
      intro a b ha h8
      have : a = [] := List.length_eq_zero.mp (Nat.le_zero.mp ha)
      subst this
      rw [groups8_of_short [] (by decide)]
      simp
  | succ n ih =>
      intro a b ha h8
      by_cases hsh : a.length < 8
      · have h0 : a.length = 0 := by omega
        have : a = [] := List.length_eq_zero.mp h0
        subst this
        rw [groups8_of_short [] (by decide)]
        simp
      · rw [groups8_of_long a hsh,
          groups8_of_long (a ++ b) (by simp; omega)]
        rw [List.take_append_of_le_length (by omega),
          List.drop_append_of_le_length (by omega)]
        rw [ih (a.drop 8) b (by simp; omega) (by simp; omega)]
        simp

theorem groups8_append (a b : List Nat) (h8 : a.length % 8 = 0) :
    groups8 (a ++ b) = groups8 a ++ groups8 b :=
  groups8_append_aux a.length a b le_rfl h8

theorem fault_loop_run_spec
    (step : List Nat → List Nat → List Nat × List (List Nat))
    (hstep : ∀ buf chunk, step buf chunk =
      ((buf ++ chunk).drop (8 * ((buf ++ chunk).length / 8)),
        groups8 (buf ++ chunk))) :
    ∀ (chunks : List (List Nat)) (buf : List Nat), buf.length < 8 →
      fault_loop_run step buf chunks =
        ((buf ++ chunks.flatten).drop
            (8 * ((buf ++ chunks.flatten).length / 8)),
          groups8 (buf ++ chunks.flatten)) := by
  intro chunks
  induction chunks with
  | nil =>
      intro buf hb
      have hq : buf.length / 8 = 0 := by omega
      simp [fault_loop_run, hq, groups8_of_short _ hb]
  | cons c cs ih =>
      intro buf hb
      have hrlen : ((buf ++ c).drop
          (8 * ((buf ++ c).length / 8))).length < 8 := by
        simp only [List.length_drop]
        omega
      rw [fault_loop_run]
      simp only [hstep buf c]
      rw [ih _ hrlen]
      simp only []
      -- name the complete-group part and the remainder
      set q := (buf ++ c).length / 8 with hq
      set t := (buf ++ c).take (8 * q) with ht
      set r := (buf ++ c).drop (8 * q) with hr
      have htr : t ++ r = buf ++ c := List.take_append_drop _ _
      have htlen : t.length = 8 * q := by
        rw [ht]
        simp only [List.length_take]
        omega
      have ht8 : t.length % 8 = 0 := by omega
      have hsplit : buf ++ (c :: cs).flatten = t ++ (r ++ cs.flatten) := by
        rw [List.flatten_cons, ← List.append_assoc, ← List.append_assoc, htr]
      have hgr : groups8 r = [] := groups8_of_short r hrlen
      have hbc : groups8 (buf ++ c) = groups8 t := by
        rw [← htr, groups8_append t r ht8, hgr, List.append_nil]
      apply Prod.ext
      · show (r ++ cs.flatten).drop
            (8 * ((r ++ cs.flatten).length / 8)) =
          (buf ++ (c :: cs).flatten).drop
            (8 * ((buf ++ (c :: cs).flatten).length / 8))
        rw [hsplit]
        have hlen2 : (t ++ (r ++ cs.flatten)).length =
            t.length + (r ++ cs.flatten).length := List.length_append _ _
        rw [hlen2, htlen]
        have hdiv : (8 * q + (r ++ cs.flatten).length) / 8 =
            q + (r ++ cs.flatten).length / 8 := by omega
        rw [hdiv, Nat.mul_add, ← htlen,
          List.drop_append (8 * ((r ++ cs.flatten).length / 8))]
      · show groups8 (buf ++ c) ++ groups8 (r ++ cs.flatten) =
          groups8 (buf ++ (c :: cs).flatten)
        rw [hsplit, groups8_append t (r ++ cs.flatten) ht8, hbc]

/-- Claim C10: both fault-pipe readers preserve u64 alignment across
arbitrarily fragmented reads.  Starting from an empty buffer, for any
sequence of read chunks, the u64 offsets processed are exactly the
complete 8-byte groups of the concatenated byte stream, in order (so none
is lost, duplicated, or assembled from bytes of two different offsets),
and the leftover buffer is the trailing partial group. -/
theorem fault_loops_preserve_alignment (chunks : List (List Nat)) :
    fault_loop_run incoming_fault_loop_step [] chunks =
      (chunks.flatten.drop (8 * (chunks.flatten.length / 8)),
        groups8 chunks.flatten)
    ∧ fault_loop_run umemd_fault_loop_step [] chunks =
      (chunks.flatten.drop (8 * (chunks.flatten.length / 8)),
        groups8 chunks.flatten) := by
  constructor
  · have h := fault_loop_run_spec incoming_fault_loop_step
      (fun buf chunk => rfl) chunks [] (by simp)
    simpa using h
  · have h := fault_loop_run_spec umemd_fault_loop_step
      (fun buf chunk => rfl) chunks [] (by simp)
    simpa using h

end Postcopy
